import Mathlib

/-!
Verification of the OCR post-processing, region merging, image-variant
generation, vector-similarity matching and progress reporting of the
NicotineCropper client, as a shallow embedding in Lean.

Strings are modelled as lists of characters (Lean `String.data`); the
character classes used by the regular expressions in the source
(whitespace, lowercase letters, digits, word characters) are the ASCII
classes the source relies on.  Numbers are modelled as rationals or
reals where the JavaScript source uses IEEE numbers.
-/

set_option maxHeartbeats 1000000

set_option linter.unusedVariables false

/-! ### Character classes (ASCII, as used by the regexes in the source) -/

def isWS (c : Char) : Bool :=
  c = ' ' || c = '\t' || c = '\n' || c = '\r'

def isLowerAZ (c : Char) : Bool :=
  'a' ≤ c && c ≤ 'z'

def isUpperAZ (c : Char) : Bool :=
  'A' ≤ c && c ≤ 'Z'

def isDigit09 (c : Char) : Bool :=
  '0' ≤ c && c ≤ '9'

/-- JavaScript regex word character class: [A-Za-z0-9_]. -/
def isWordChar (c : Char) : Bool :=
  isLowerAZ c || isUpperAZ c || isDigit09 c || c = '_'

/-! ### Whitespace normalization: trim and replace of runs of whitespace -/

/-- Model of JavaScript String.prototype.trim. -/
def trimL (l : List Char) : List Char :=
  ((l.dropWhile isWS).reverse.dropWhile isWS).reverse

/-- Model of text.replace of a whitespace run by a single space (global). -/
def collapseWS : List Char → List Char
  | [] => []
  | [c] => if isWS c then [' '] else [c]
  | c :: d :: rest =>
      if isWS c then
        if isWS d then collapseWS (d :: rest)
        else ' ' :: collapseWS (d :: rest)
      else c :: collapseWS (d :: rest)

/-! ### Line splitting and joining -/

/-- Model of text.split of a newline character: splitLines of [] is [[]],
and every newline separates two (possibly empty) lines. -/
def splitLines : List Char → List (List Char)
  | [] => [[]]
  | c :: rest =>
      if c = '\n' then [] :: splitLines rest
      else
        match splitLines rest with
        | l :: ls => (c :: l) :: ls
        | [] => [[c]]

/-- Model of lines.join of a newline character. -/
def joinLines : List (List Char) → List Char
  | [] => []
  | [l] => l
  | l :: l2 :: rest => l ++ '\n' :: joinLines (l2 :: rest)

/-- Model of parts.join of a single space. -/
def joinSpace : List (List Char) → List Char
  | [] => []
  | [l] => l
  | l :: l2 :: rest => l ++ ' ' :: joinSpace (l2 :: rest)

/-! ### The Step-5 correction rules of postProcessText
(useTensorflowTextExtraction.tsx lines 569-597), one definition per
regex replacement, in source order.  Lookaheads consume nothing; the
scan continues after the consumed characters, as JavaScript global
replace does. -/

/-- Rule 1: pipe followed by lowercase l becomes capital I. -/
def fixPipeL : List Char → List Char
  | '|' :: 'l' :: rest => 'I' :: fixPipeL rest
  | c :: rest => c :: fixPipeL rest
  | [] => []

/-- Rule 2: digit zero or capital O followed by a lowercase letter becomes O. -/
def fixZeroO : List Char → List Char
  | c :: d :: rest =>
      if (c = '0' || c = 'O') && isLowerAZ d then 'O' :: fixZeroO (d :: rest)
      else c :: fixZeroO (d :: rest)
  | l => l

/-- Rule 3: lowercase l followed by a digit becomes 1. -/
def fixL1 : List Char → List Char
  | c :: d :: rest =>
      if c = 'l' && isDigit09 d then '1' :: fixL1 (d :: rest)
      else c :: fixL1 (d :: rest)
  | l => l

/-- Helper for the negative lookahead of rule 4: true when the rest of the
line starts with zero or more whitespace characters followed by a
lowercase letter. -/
def wsThenLower : List Char → Bool
  | [] => false
  | c :: rest => if isWS c then wsThenLower rest else isLowerAZ c

/-- Rule 4: capital I with a word boundary on both sides, not followed by
optional whitespace and a lowercase letter, becomes 1.  The boundary after
the I requires the next character to not be a word character, so an I
directly followed by a digit is not rewritten.  The flag carries whether
the previous character of the original line was a word character. -/
def fixI (prevIsWord : Bool) : List Char → List Char
  | [] => []
  | c :: rest =>
      if c = 'I' then
        let boundaryAfter := match rest with
          | [] => true
          | d :: _ => !isWordChar d
        if !prevIsWord && boundaryAfter && !wsThenLower rest then
          '1' :: fixI true rest
        else
          'I' :: fixI true rest
      else
        c :: fixI (isWordChar c) rest

/-- Rule 5: capital S followed by a digit becomes 5. -/
def fixS5 : List Char → List Char
  | c :: d :: rest =>
      if c = 'S' && isDigit09 d then '5' :: fixS5 (d :: rest)
      else c :: fixS5 (d :: rest)
  | l => l

/-- Rule 6: capital Z followed by a digit becomes 2. -/
def fixZ2 : List Char → List Char
  | c :: d :: rest =>
      if c = 'Z' && isDigit09 d then '2' :: fixZ2 (d :: rest)
      else c :: fixZ2 (d :: rest)
  | l => l

/-- Rule 7: exclamation mark followed by a digit becomes 1. -/
def fixBang1 : List Char → List Char
  | c :: d :: rest =>
      if c = '!' && isDigit09 d then '1' :: fixBang1 (d :: rest)
      else c :: fixBang1 (d :: rest)
  | l => l

/-- Rule 8: the pair rn becomes m. -/
def fixRN : List Char → List Char
  | 'r' :: 'n' :: rest => 'm' :: fixRN rest
  | c :: rest => c :: fixRN rest
  | [] => []

/-- Rule 9: the pair cl becomes d. -/
def fixCL : List Char → List Char
  | 'c' :: 'l' :: rest => 'd' :: fixCL rest
  | c :: rest => c :: fixCL rest
  | [] => []

/-- Rule 10: the pair nn is replaced by nn, a no-op that still consumes
both characters, exactly as the source replacement does. -/
def fixNN : List Char → List Char
  | 'n' :: 'n' :: rest => 'n' :: 'n' :: fixNN rest
  | c :: rest => c :: fixNN rest
  | [] => []

/-- Rule 11: the pair ii becomes n. -/
def fixII : List Char → List Char
  | 'i' :: 'i' :: rest => 'n' :: fixII rest
  | c :: rest => c :: fixII rest
  | [] => []

/-- One line of postProcessText: trim, collapse whitespace runs, then the
eleven substitution rules in source order. -/
def processLine (line : List Char) : List Char :=
  fixII (fixNN (fixCL (fixRN (fixBang1 (fixZ2 (fixS5 (fixI false
    (fixL1 (fixZeroO (fixPipeL (collapseWS (trimL line))))))))))))

/-- Model of postProcessText (useTensorflowTextExtraction.tsx 569-597):
split into lines, process each line, drop lines that are empty after
trimming, join with newlines.  The empty input returns the empty text. -/
def postProcessText (text : List Char) : List Char :=
  if text = [] then []
  else joinLines (((splitLines text).map processLine).filter
    (fun l => !(trimL l).isEmpty))

/-! ### Line deduplication (removeDuplicateLines,
useTensorflowTextExtraction.tsx lines 526-566).  The kept lines are
pairs of the trimmed line and its normalized form (lowercase, whitespace
runs collapsed), mirroring the parallel uniqueLines and seenLines
arrays of the source. -/

/-- Containment of one character list in another (JavaScript
String.prototype.includes). -/
def containsL (text pat : List Char) : Bool :=
  match text with
  | [] => pat.isEmpty
  | _ :: rest => pat.isPrefixOf text || containsL rest pat

/-- Normalization used for near-duplicate comparison: lowercase, then
whitespace runs collapsed to single spaces. -/
def normalizeL (l : List Char) : List Char :=
  collapseWS (l.map Char.toLower)

/-- The inner loop of removeDuplicateLines: walk the kept lines looking
for the first near duplicate (containment of normalized forms in either
direction); replace it when the new trimmed line is longer, keep it
otherwise, and append at the end when no near duplicate exists. -/
def insertLine (kept : List (List Char × List Char)) (t n : List Char) :
    List (List Char × List Char) :=
  match kept with
  | [] => [(t, n)]
  | (u, s) :: rest =>
      if containsL n s || containsL s n then
        if u.length < t.length then (t, n) :: rest else (u, s) :: rest
      else (u, s) :: insertLine rest t n

/-- The outer loop of removeDuplicateLines over the split lines: empty
trimmed lines are skipped, all others are inserted. -/
def dedupLines (kept : List (List Char × List Char)) :
    List (List Char) → List (List Char × List Char)
  | [] => kept
  | line :: ls =>
      let t := trimL line
      if t.isEmpty then dedupLines kept ls
      else dedupLines (insertLine kept t (normalizeL t)) ls

/-- Model of removeDuplicateLines: split into lines, filter near
duplicates keeping the longer of each pair, join the kept trimmed lines
with newlines.  The empty input returns the empty text. -/
def removeDuplicateLines (text : List Char) : List Char :=
  if text = [] then []
  else joinLines ((dedupLines [] (splitLines text)).map Prod.fst)

/-! ### Region merging (mergeAdjacentRegions,
useTensorflowTextExtraction.tsx lines 245-297).

In the source, result only ever holds the first region (nothing else is
ever pushed), and that region aliases regions[0], so the
identical-coordinates test always skips the first pool entry.  The model
therefore keeps one accumulator region (the first input region) and a
pool holding the remaining input regions.  A pass scans the pool left to
right: entries whose coordinates equal the accumulator are skipped,
overlapping entries are absorbed into the accumulator (bounding box
union) and removed from the pool.  Passes repeat until one makes no
merge, exactly the while loop of the source. -/

structure Region where
  x : Int
  y : Int
  width : Int
  height : Int
deriving DecidableEq

/-- Axis-aligned overlap test of the source (lines 271-272). -/
def overlaps (r1 r2 : Region) : Bool :=
  (r1.x < r2.x + r2.width && r2.x < r1.x + r1.width) &&
  (r1.y < r2.y + r2.height && r2.y < r1.y + r1.height)

/-- Bounding box union of two regions (lines 276-284). -/
def unionRegion (r1 r2 : Region) : Region :=
  let minX := min r1.x r2.x
  let minY := min r1.y r2.y
  let maxX := max (r1.x + r1.width) (r2.x + r2.width)
  let maxY := max (r1.y + r1.height) (r2.y + r2.height)
  { x := minX, y := minY, width := maxX - minX, height := maxY - minY }

/-- The bounding box of a contains the bounding box of b. -/
def containsRegion (a b : Region) : Prop :=
  a.x ≤ b.x ∧ a.y ≤ b.y ∧ b.x + b.width ≤ a.x + a.width ∧
    b.y + b.height ≤ a.y + a.height

instance (a b : Region) : Decidable (containsRegion a b) := by
  unfold containsRegion; infer_instance

/-- One pass of the inner j loop: returns the updated accumulator, the
remaining pool, and whether any merge happened in this pass. -/
def mergePass (r : Region) : List Region → Region × List Region × Bool
  | [] => (r, [], false)
  | p :: ps =>
      if p = r then
        let rec1 := mergePass r ps
        (rec1.1, p :: rec1.2.1, rec1.2.2)
      else if overlaps r p then
        let rec1 := mergePass (unionRegion r p) ps
        (rec1.1, rec1.2.1, true)
      else
        let rec1 := mergePass r ps
        (rec1.1, p :: rec1.2.1, rec1.2.2)

/-- The while loop: repeat passes until one makes no merge.  The fuel
argument only bounds the recursion; pool length plus one is always
enough fuel because every merging pass strictly shrinks the pool (see
mergeLoop_fuel_stable below). -/
def mergeLoop : Nat → Region → List Region → Region
  | 0, r, _ => r
  | fuel + 1, r, pool =>
      let step := mergePass r pool
      if step.2.2 then mergeLoop fuel step.1 step.2.1 else step.1

/-- Model of mergeAdjacentRegions: lists of at most one region are
returned unchanged; otherwise the result is the single region obtained
by growing the first region to a fixed point over the remaining pool. -/
def mergeAdjacentRegions (rs : List Region) : List Region :=
  match rs with
  | [] => []
  | [r] => [r]
  | r :: rest => [mergeLoop (rest.length + 1) r rest]

/-- The symmetric near-duplicate test that deduplication uses. -/
def nearDup (a b : List Char) : Bool :=
  containsL (normalizeL a) (normalizeL b) || containsL (normalizeL b) (normalizeL a)

/-! ### Image variant generation (createEnhancedImageVariants,
imageEnhancer.ts lines 208-304).

The per-recipe pixel transformation (enhanceImageForTextRecognition) is
an effectful canvas computation that can reject; the generator is
modelled over an abstract enhancement function returning Except, and
the ten enhancement recipes are the exact option records of the source,
in source order.  The source wraps the whole sequence of awaits in one
try block whose catch returns only the original image, so the model
short-circuits on the first failing recipe. -/

structure EnhanceOptions where
  grayscale : Bool
  contrast : Option ℚ
  brightness : Option ℤ
  sharpen : Bool
  binarize : Bool
  threshold : Option ℕ
  despeckle : Bool
deriving DecidableEq

/-- A base option record with every enhancement off, standing for the
absent fields of a JavaScript options object. -/
def noEnhance : EnhanceOptions :=
  { grayscale := false, contrast := none, brightness := none,
    sharpen := false, binarize := false, threshold := none,
    despeckle := false }

/-- The ten enhancement recipes of createEnhancedImageVariants, in
source order. -/
def recipes : List EnhanceOptions :=
  [ { noEnhance with grayscale := true, contrast := some 1.5 },
    { noEnhance with grayscale := true, sharpen := true, contrast := some 1.2 },
    { noEnhance with grayscale := true, binarize := true, threshold := some 128 },
    { noEnhance with grayscale := true, despeckle := true, contrast := some 1.7, brightness := some 10 },
    { noEnhance with grayscale := true, contrast := some 2, brightness := some (-10) },
    { noEnhance with grayscale := true, contrast := some 2, brightness := some 30, binarize := true, threshold := some 180 },
    { noEnhance with grayscale := true, sharpen := true, contrast := some 2.5, brightness := some 0, despeckle := true },
    { noEnhance with grayscale := true, contrast := some 3, brightness := some (-5), sharpen := true, binarize := true, threshold := some 100 },
    { noEnhance with grayscale := true, contrast := some 3, brightness := some 15, sharpen := true, binarize := true, threshold := some 150 },
    { noEnhance with grayscale := true, sharpen := true, contrast := some 2.2, brightness := some 0, binarize := false } ]

/-- Model of createEnhancedImageVariants: push the original, then each
recipe's enhanced variant in order inside a single try; any failure
discards everything and returns only the original image. -/
def createEnhancedImageVariants {ε α : Type} (enh : EnhanceOptions → Except ε α)
    (orig : α) : List α :=
  match recipes.mapM enh with
  | .ok vs => orig :: vs
  | .error _ => [orig]

/-- An enhancement function that fails exactly on the one recipe with
binarization threshold 128 (the third recipe) and succeeds with value 1
on every other recipe. -/
def enhFailBinarize : EnhanceOptions → Except Unit Int :=
  fun o => if o.threshold = some 128 then .error () else .ok 1

/-! ### Vector similarity (vectorDatabase.ts).

JavaScript numbers are modelled as reals.  cosineSimilarity truncates
both vectors to their common length (the loop runs to the minimum
length, where the or-zero guards never fire), accumulates the dot
product and both squared magnitudes over those dimensions only, and
returns 0 when either truncated magnitude is zero. -/

/-- The loop of cosineSimilarity (lines 43-50): dot product and the two
squared magnitudes accumulated over the common prefix of the two
vectors. -/
noncomputable def cosineAccum : List ℝ → List ℝ → ℝ × ℝ × ℝ
  | a :: as, b :: bs =>
      let rec1 := cosineAccum as bs
      (a * b + rec1.1, a * a + rec1.2.1, b * b + rec1.2.2)
  | _, _ => (0, 0, 0)

/-- Model of cosineSimilarity (vectorDatabase.ts lines 36-60). -/
noncomputable def cosineSimilarity (a b : List ℝ) : ℝ :=
  let acc := cosineAccum a b
  let aMagnitude := Real.sqrt acc.2.1
  let bMagnitude := Real.sqrt acc.2.2
  if aMagnitude = 0 ∨ bMagnitude = 0 then 0
  else acc.1 / (aMagnitude * bMagnitude)

/-- A catalog entry (vectorDatabase.ts ProductVector interface). -/
structure ProductVector where
  id : String
  name : String
  strength : Option String
  vector : List ℝ

/-- The descending-similarity ordering used by the sort comparator of
findNearestProducts: a scored entry precedes another when its
similarity is at least as large. -/
def simRel (x y : ProductVector × ℝ) : Prop := y.2 ≤ x.2

instance : IsTotal (ProductVector × ℝ) simRel :=
  ⟨fun x y => le_total y.2 x.2⟩

instance : IsTrans (ProductVector × ℝ) simRel :=
  ⟨fun _ _ _ h1 h2 => le_trans h2 h1⟩

noncomputable instance : DecidableRel simRel :=
  fun _ _ => Classical.propDecidable _

/-- Model of findNearestProducts (vectorDatabase.ts lines 68-83): score
every catalog entry against the query, sort descending by similarity
with a stable sort (JavaScript Array.prototype.sort is stable, and
insertion sort with this insertion rule is the stable sort), and take
the first topK.  The module-level catalog array is passed explicitly. -/
noncomputable def findNearestProducts (catalog : List ProductVector)
    (queryVector : List ℝ) (topK : ℕ) : List (ProductVector × ℝ) :=
  ((catalog.map
    (fun product => (product, cosineSimilarity queryVector product.vector))).insertionSort
      simRel).take topK

/-- The source defaults topK to 3 when the caller omits it. -/
noncomputable def findNearestProductsDefault (catalog : List ProductVector)
    (queryVector : List ℝ) : List (ProductVector × ℝ) :=
  findNearestProducts catalog queryVector 3

/-! ### Catalog loading (loadProductVectorsFromJSON, vectorDatabase.ts
lines 107-142).

JSON.parse is an external capability: its outcome is modelled as an
Except value, where error stands for a parse exception, which the
source catches and only logs.  Parsed JSON is modelled by an inductive
value type; property access on a non-object yields none, matching the
undefined of JavaScript on the values that reach it here.  The module
state productVectors is passed and returned explicitly; the numeric
payload of a vectors entry is read off with non-numbers as 0, standing
for the untyped vector field of the source. -/

inductive Json where
  | null
  | bool (b : Bool)
  | num (q : ℚ)
  | str (s : String)
  | arr (elems : List Json)
  | obj (fields : List (String × Json))

/-- JavaScript property access on a parsed JSON value. -/
def getField : Json → String → Option Json
  | Json.obj fields, k => List.lookup k fields
  | _, _ => none

/-- JavaScript truthiness of a parsed JSON value. -/
def truthy : Json → Bool
  | Json.null => false
  | Json.bool b => b
  | Json.num q => decide (q ≠ 0)
  | Json.str s => decide (s ≠ "")
  | Json.arr _ => true
  | Json.obj _ => true

/-- Numeric reading of one vector component. -/
def jsonNumVal : Json → ℝ
  | Json.num q => (q : ℝ)
  | _ => 0

/-- Numeric reading of a vectors entry. -/
def toNumList : Json → List ℝ
  | Json.arr xs => xs.map jsonNumVal
  | _ => []

/-- String(index+1).padStart(3, the zero digit). -/
def pad3 (n : ℕ) : String :=
  let s := toString n
  String.mk (List.replicate (3 - s.length) '0') ++ s

/-- The synthetic catalog entry built for index i (lines 117-121). -/
def defaultEntry (i : ℕ) (v : Json) : ProductVector :=
  { id := "P" ++ pad3 (i + 1), name := "Product " ++ toString (i + 1),
    strength := none, vector := toNumList v }

/-- productData.id or the fallback: the override applies when the field
is a truthy string. -/
def strOr (j : Option Json) (dflt : String) : String :=
  match j with
  | some (Json.str s) => if s = "" then dflt else s
  | _ => dflt

/-- productData.strength, stored as given when it is a string. -/
def strOpt (j : Option Json) : Option String :=
  match j with
  | some (Json.str s) => some s
  | _ => none

/-- Overriding a synthetic entry with the products[i] metadata
(lines 124-131). -/
def applyProductMeta (p : Json) (base : ProductVector) : ProductVector :=
  { id := strOr (getField p "id") base.id,
    name := strOr (getField p "name") base.name,
    strength := strOpt (getField p "strength"),
    vector := base.vector }

/-- Model of loadProductVectorsFromJSON: on a parse failure the catch
block only logs, and when the parsed data is falsy or has no vectors
array the body is skipped, so in both cases the previous catalog is
returned unchanged; otherwise the catalog is rebuilt from the vectors
array, using products[i] metadata when present and truthy. -/
def loadProductVectorsFromJSON (parsed : Except String Json)
    (catalog : List ProductVector) : List ProductVector :=
  match parsed with
  | .error _ => catalog
  | .ok data =>
      if truthy data then
        match getField data "vectors" with
        | some (Json.arr vs) =>
            vs.enum.map (fun iv =>
              match getField data "products" with
              | some (Json.arr ps) =>
                  match ps[iv.1]? with
                  | some p =>
                      if truthy p then applyProductMeta p (defaultEntry iv.1 iv.2)
                      else defaultEntry iv.1 iv.2
                  | none => defaultEntry iv.1 iv.2
              | _ => defaultEntry iv.1 iv.2)
        | _ => catalog
      else catalog

/-! ### Progress reporting (extractTextFromImage,
useTensorflowTextExtraction.tsx lines 300-523).

The sequence of values passed to setProgress on the success path is a
function of the number of image variants, the recognition-progress
fractions the Tesseract logger reports while the first variant is being
recognized (the logger only updates progress for variant 0), and the
number of detected regions.  The fixed stage values 0, 5, 10, 15, 20,
25, 95, 100 and the two per-loop formulas are taken from the source;
Math.round of a nonnegative value is floor of the value plus one
half. -/

/-- Math.round on the nonnegative values that occur here. -/
def jsRound (q : ℚ) : ℤ := ⌊q + 1 / 2⌋

/-- Progress set at the top of the variant loop (line 337). -/
def variantProgress (numVariants i : ℕ) : ℤ :=
  jsRound (25 + ((i : ℚ) / (numVariants : ℚ)) * 40)

/-- Progress set by the Tesseract logger during the first variant
(line 346), from a reported recognition fraction. -/
def loggerProgress (e : ℚ) : ℤ := jsRound (25 + e * 20)

/-- Progress set at the top of the region loop (line 390). -/
def regionProgress (numRegions i : ℕ) : ℤ :=
  jsRound (65 + ((i : ℚ) / (numRegions : ℚ)) * 25)

/-- The full sequence of progress values reported during one successful
extraction. -/
def progressTrace (numVariants : ℕ) (v0Events : List ℚ) (numRegions : ℕ) :
    List ℤ :=
  [0, 5, 10, 15, 20, 25]
    ++ (List.range numVariants).flatMap
        (fun i => variantProgress numVariants i ::
          (if i = 0 then v0Events.map loggerProgress else []))
    ++ (List.range numRegions).map (regionProgress numRegions)
    ++ [95, 100]

/-! ### Region grouping (extractTextFromImage,
useTensorflowTextExtraction.tsx lines 448-477).

A recognized region carries its bounding box x, y, width, height and
its transcript.  The source filters the region results into a bottom
group, box top edge y strictly greater than half the image height, and
a top group, y strictly smaller than half the image height; each
nonempty group's transcripts are joined with single spaces, trimmed,
and pushed, top first, when nonempty. -/

structure RegionText where
  x : ℚ
  y : ℚ
  width : ℚ
  height : ℚ
  text : List Char
deriving DecidableEq

/-- The bottom group filter (lines 455-459). -/
def bottomRegions (imgHeight : ℚ) (regionTexts : List RegionText) :
    List RegionText :=
  regionTexts.filter (fun r => decide (imgHeight / 2 < r.y))

/-- The top group filter (lines 461-465). -/
def topRegions (imgHeight : ℚ) (regionTexts : List RegionText) :
    List RegionText :=
  regionTexts.filter (fun r => decide (r.y < imgHeight / 2))

/-- The group transcripts pushed onto allRegionTexts (lines 467-476):
top group first, then bottom group, each only when the group is
nonempty and its space-joined trimmed transcript is nonempty. -/
def allRegionTexts (imgHeight : ℚ) (regionTexts : List RegionText) :
    List (List Char) :=
  (if topRegions imgHeight regionTexts ≠ [] then
    (if trimL (joinSpace ((topRegions imgHeight regionTexts).map
        (fun r => r.text))) ≠ [] then
      [trimL (joinSpace ((topRegions imgHeight regionTexts).map
        (fun r => r.text)))]
    else [])
  else [])
  ++ (if bottomRegions imgHeight regionTexts ≠ [] then
    (if trimL (joinSpace ((bottomRegions imgHeight regionTexts).map
        (fun r => r.text))) ≠ [] then
      [trimL (joinSpace ((bottomRegions imgHeight regionTexts).map
        (fun r => r.text)))]
    else [])
  else [])

/-- A region result whose box top edge sits exactly at half the image
height: it lands in neither group. -/
def boundaryRegion : RegionText := ⟨0, 50, 10, 10, ['a']⟩

/-- A region result whose box top edge is in the top half while its
vertical midpoint, 40 plus half of 40, equals 60, in the bottom half. -/
def midpointRegion : RegionText := ⟨0, 40, 10, 40, ['b']⟩

/-! ### Theorems -/

/-- C1: the Step-5 correction rules on the line l23 S4 I9 yield
123 54 I9, not the 123 54 19 the claim states: the I to 1 rule has a
word boundary requirement after the I, so an I directly followed by a
digit is never rewritten, although the source comment on that rule says
it fixes every I not followed by a lowercase letter.  This theorem
evaluates the embedded rules at the failing input and shows the result
differs from the claimed output. -/
theorem C1_postProcess_on_l23_S4_I9 :
    postProcessText ("l23 S4 I9".data) = ("123 54 I9".data) ∧
      ("123 54 I9".data : List Char) ≠ ("123 54 19".data) := by decide

theorem containsRegion_refl (a : Region) : containsRegion a a :=
  ⟨le_refl _, le_refl _, le_refl _, le_refl _⟩

theorem containsRegion_trans {a b c : Region} (h1 : containsRegion a b)
    (h2 : containsRegion b c) : containsRegion a c := by
  obtain ⟨h11, h12, h13, h14⟩ := h1
  obtain ⟨h21, h22, h23, h24⟩ := h2
  exact ⟨le_trans h11 h21, le_trans h12 h22, le_trans h23 h13,
    le_trans h24 h14⟩

theorem containsRegion_unionRegion_left (a b : Region) :
    containsRegion (unionRegion a b) a := by
  refine ⟨min_le_left _ _, min_le_left _ _, ?_, ?_⟩ <;>
    · simp only [unionRegion]
      omega

/-- The accumulator of a pass only grows: the pass result contains the
region the pass started from. -/
theorem mergePass_contains (pool : List Region) :
    ∀ r : Region, containsRegion (mergePass r pool).1 r := by
  induction pool with
  | nil => intro r; exact containsRegion_refl r
  | cons p ps ih =>
      intro r
      by_cases hpr : p = r
      · simpa [mergePass, hpr] using ih r
      · by_cases hov : overlaps r p
        · have h1 := ih (unionRegion r p)
          have h2 := containsRegion_unionRegion_left r p
          simpa [mergePass, hpr, hov] using containsRegion_trans h1 h2
        · simpa [mergePass, hpr, hov] using ih r

/-- The fixed-point loop only grows the accumulator. -/
theorem mergeLoop_contains (fuel : Nat) :
    ∀ (r : Region) (pool : List Region),
      containsRegion (mergeLoop fuel r pool) r := by
  induction fuel with
  | zero => intro r pool; exact containsRegion_refl r
  | succ n ih =>
      intro r pool
      show containsRegion
        (if (mergePass r pool).2.2 then
          mergeLoop n (mergePass r pool).1 (mergePass r pool).2.1
        else (mergePass r pool).1) r
      by_cases hb : (mergePass r pool).2.2
      · simp only [hb, if_true]
        exact containsRegion_trans (ih _ _) (mergePass_contains pool r)
      · simp only [hb, if_false]
        exact mergePass_contains pool r

/-- A pass never grows the pool, and a pass that merged something
strictly shrinks it. -/
theorem mergePass_pool_length (pool : List Region) :
    ∀ r : Region, (mergePass r pool).2.1.length ≤ pool.length ∧
      ((mergePass r pool).2.2 = true →
        (mergePass r pool).2.1.length < pool.length) := by
  induction pool with
  | nil => intro r; simp [mergePass]
  | cons p ps ih =>
      intro r
      by_cases hpr : p = r
      · have := ih r
        simp only [mergePass, hpr, if_true, List.length_cons]
        constructor
        · exact Nat.succ_le_succ this.1
        · intro hb; exact Nat.succ_lt_succ (this.2 hb)
      · by_cases hov : overlaps r p
        · have := ih (unionRegion r p)
          simp only [mergePass, hpr, if_false, hov, if_true, List.length_cons]
          exact ⟨Nat.le_succ_of_le this.1, fun _ => Nat.lt_succ_of_le this.1⟩
        · have := ih r
          simp only [mergePass, hpr, if_false, hov, List.length_cons]
          constructor
          · exact Nat.succ_le_succ this.1
          · intro hb; exact Nat.succ_lt_succ (this.2 hb)

/-- Pool length plus one is always enough fuel: with that much fuel the
loop reaches the fixed point, so adding more fuel changes nothing.  This
justifies modelling the unbounded while loop of the source with the
fuel used by mergeAdjacentRegions. -/
theorem mergeLoop_fuel_stable :
    ∀ (fuel : Nat) (r : Region) (pool : List Region),
      pool.length < fuel → mergeLoop fuel r pool = mergeLoop (fuel + 1) r pool := by
  intro fuel
  induction fuel with
  | zero => intro r pool h; exact absurd h (Nat.not_lt_zero _)
  | succ n ih =>
      intro r pool h
      show (if (mergePass r pool).2.2 then
          mergeLoop n (mergePass r pool).1 (mergePass r pool).2.1
        else (mergePass r pool).1)
        = (if (mergePass r pool).2.2 then
          mergeLoop (n + 1) (mergePass r pool).1 (mergePass r pool).2.1
        else (mergePass r pool).1)
      by_cases hb : (mergePass r pool).2.2
      · rw [if_pos hb, if_pos hb]
        apply ih
        have hlt := (mergePass_pool_length pool r).2 hb
        omega
      · rw [if_neg hb, if_neg hb]

/-- C10: for every input list of two or more regions,
mergeAdjacentRegions returns a list holding exactly one region; that
region contains the first input region, and every output region equals
it, so input regions whose boxes never come to overlap the grown first
region are discarded from the output. -/
theorem C10_merge_returns_single_grown_region (r : Region)
    (rest : List Region) (h : rest ≠ []) :
    ∃ g, mergeAdjacentRegions (r :: rest) = [g] ∧ containsRegion g r ∧
      ∀ g2 ∈ mergeAdjacentRegions (r :: rest), g2 = g := by
  match rest, h with
  | p :: ps, _ =>
      refine ⟨mergeLoop ((p :: ps).length + 1) r (p :: ps), rfl, ?_, ?_⟩
      · exact mergeLoop_contains _ r (p :: ps)
      · intro g2 hg2
        simpa [mergeAdjacentRegions] using hg2

/-- Witness for C10 at a concrete two-region input. -/
theorem C10_witness :
    ∃ g, mergeAdjacentRegions [⟨0, 0, 10, 10⟩, ⟨5, 5, 10, 10⟩] = [g] ∧
      containsRegion g ⟨0, 0, 10, 10⟩ ∧
      ∀ g2 ∈ mergeAdjacentRegions [⟨0, 0, 10, 10⟩, ⟨5, 5, 10, 10⟩], g2 = g :=
  C10_merge_returns_single_grown_region ⟨0, 0, 10, 10⟩ [⟨5, 5, 10, 10⟩]
    (by decide)

/-- C2 counterexample: on two disjoint regions, the merge step returns
only the first region, so the second input region is not contained in
the bounding box of any output region, contrary to the claim that every
input region is covered by some output region. -/
theorem C2_counterexample :
    mergeAdjacentRegions [⟨0, 0, 10, 10⟩, ⟨100, 100, 10, 10⟩]
        = [⟨0, 0, 10, 10⟩] ∧
      ¬ ∃ g ∈ mergeAdjacentRegions [⟨0, 0, 10, 10⟩, ⟨100, 100, 10, 10⟩],
          containsRegion g ⟨100, 100, 10, 10⟩ := by decide

/-- C2 amended: the merge step output never holds two overlapping
regions (it has at most one element), and the first input region is
always contained in the bounding box of some output region; input
regions that never come to overlap the grown first region are dropped
rather than merged, so the coverage guarantee holds only for the first
input region. -/
theorem C2_amended_merge_fixpoint (rs : List Region) :
    List.Pairwise (fun a b => ¬ overlaps a b = true) (mergeAdjacentRegions rs) ∧
      ∀ h : rs ≠ [], ∃ g ∈ mergeAdjacentRegions rs,
        containsRegion g (rs.head h) := by
  match rs with
  | [] => exact ⟨List.Pairwise.nil, fun h => absurd rfl h⟩
  | [r] =>
      refine ⟨List.pairwise_singleton _ _, fun h => ⟨r, ?_, containsRegion_refl r⟩⟩
      simp [mergeAdjacentRegions]
  | r :: p :: ps =>
      refine ⟨List.pairwise_singleton _ _, fun h => ?_⟩
      exact ⟨mergeLoop ((p :: ps).length + 1) r (p :: ps), by simp [mergeAdjacentRegions],
        mergeLoop_contains _ r (p :: ps)⟩

/-- Splitting undoes joining of a nonempty newline-free line list. -/
theorem splitLines_joinLines :
    ∀ ls : List (List Char), ls ≠ [] → (∀ l ∈ ls, '\n' ∉ l) →
      splitLines (joinLines ls) = ls := by
  have noNl : ∀ l : List Char, '\n' ∉ l → splitLines l = [l] := by
    intro l
    induction l with
    | nil => intro _; rfl
    | cons c rest ih =>
        intro h
        have hc : ¬ c = '\n' := fun hEq => h (hEq ▸ List.mem_cons_self c rest)
        have hr : '\n' ∉ rest := fun hm => h (List.mem_cons_of_mem c hm)
        simp only [splitLines, if_neg hc, ih hr]
  have step : ∀ (l t : List Char), '\n' ∉ l →
      splitLines (l ++ '\n' :: t) = l :: splitLines t := by
    intro l t
    induction l with
    | nil => intro _; simp [splitLines]
    | cons c rest ih =>
        intro h
        have hc : ¬ c = '\n' := fun hEq => h (hEq ▸ List.mem_cons_self c rest)
        have hr : '\n' ∉ rest := fun hm => h (List.mem_cons_of_mem c hm)
        show splitLines (c :: (rest ++ '\n' :: t)) = (c :: rest) :: splitLines t
        simp only [splitLines, if_neg hc]
        rw [ih hr]
  intro ls
  induction ls with
  | nil => intro h _; exact absurd rfl h
  | cons l rest ih =>
      intro _ hnl
      match rest with
      | [] => exact noNl l (hnl l (List.mem_cons_self _ _))
      | l2 :: rest2 =>
          have h1 : '\n' ∉ l := hnl l (List.mem_cons_self _ _)
          have h2 : ∀ x ∈ l2 :: rest2, '\n' ∉ x := fun x hx =>
            hnl x (List.mem_cons_of_mem l hx)
          show splitLines (l ++ '\n' :: joinLines (l2 :: rest2)) = _
          rw [step l _ h1, ih (List.cons_ne_nil _ _) h2]

/-- When a line near-duplicates nothing already kept, it is appended at
the end of the kept list. -/
theorem insertLine_append (t n : List Char) :
    ∀ kept : List (List Char × List Char),
      (∀ p ∈ kept, (containsL n p.2 || containsL p.2 n) = false) →
      insertLine kept t n = kept ++ [(t, n)] := by
  intro kept
  induction kept with
  | nil => intro _; rfl
  | cons p rest ih =>
      intro h
      have hp := h p (List.mem_cons_self _ _)
      obtain ⟨u, s⟩ := p
      simp only [insertLine]
      rw [if_neg (by simp_all), ih (fun q hq => h q (List.mem_cons_of_mem _ hq))]
      simp

/-- Deduplicating already-clean pairwise non-duplicate lines appends
them all to the kept list unchanged. -/
theorem dedupLines_clean :
    ∀ ls : List (List Char), ∀ kept,
      (∀ l ∈ ls, trimL l = l ∧ l ≠ []) →
      (∀ p ∈ kept, ∀ l ∈ ls,
        (containsL (normalizeL l) p.2 || containsL p.2 (normalizeL l)) = false) →
      List.Pairwise (fun a b => nearDup a b = false) ls →
      dedupLines kept ls = kept ++ ls.map (fun l => (l, normalizeL l)) := by
  intro ls
  induction ls with
  | nil => intro kept _ _ _; simp [dedupLines]
  | cons l rest ih =>
      intro kept hclean hkept hpw
      obtain ⟨htrim, hne⟩ := hclean l (List.mem_cons_self _ _)
      have hnemp : (trimL l).isEmpty = false := by
        rw [htrim]; exact List.isEmpty_eq_false_iff_exists_mem.mpr
          (match l, hne with
           | c :: _, _ => ⟨c, List.mem_cons_self _ _⟩)
      show (if (trimL l).isEmpty then dedupLines kept rest
        else dedupLines (insertLine kept (trimL l) (normalizeL (trimL l))) rest) = _
      rw [hnemp]
      simp only [Bool.false_eq_true, if_false, htrim]
      rw [insertLine_append _ _ kept
        (fun p hp => hkept p hp l (List.mem_cons_self _ _))]
      rw [ih (kept ++ [(l, normalizeL l)])
        (fun x hx => hclean x (List.mem_cons_of_mem _ hx))
        ?_ (List.Pairwise.of_cons hpw)]
      · simp
      · intro p hp x hx
        rcases List.mem_append.mp hp with hpk | hpl
        · exact hkept p hpk x (List.mem_cons_of_mem _ hx)
        · have hpl2 : p = (l, normalizeL l) := by simpa using hpl
          subst hpl2
          have := (List.pairwise_cons.mp hpw).1 x hx
          simp only [nearDup, Bool.or_eq_false_iff] at this
          simp [this.1, this.2]

/-- C6 counterexample: deduplication is not idempotent.  On the text
with lines abc, bcd, abcd the first pass replaces abc by the longer
near-duplicate abcd, which then contains the already-kept line bcd, so
a second pass removes bcd. -/
theorem C6_counterexample :
    removeDuplicateLines (removeDuplicateLines ("abc\nbcd\nabcd".data))
      ≠ removeDuplicateLines ("abc\nbcd\nabcd".data) := by decide

/-- C6 amended: deduplication leaves a text unchanged, and hence is
idempotent on it, whenever its lines are trimmed, nonempty,
newline-free and pairwise non-near-duplicate; on general inputs a
second pass may remove further lines because replacing a kept line by a
longer near-duplicate can create a new containment that the pass does
not recheck. -/
theorem C6_removeDuplicateLines_fixpoint_on_clean (ls : List (List Char))
    (h1 : ∀ l ∈ ls, trimL l = l ∧ l ≠ [] ∧ '\n' ∉ l)
    (h2 : List.Pairwise (fun a b => nearDup a b = false) ls) :
    removeDuplicateLines (joinLines ls) = joinLines ls ∧
      removeDuplicateLines (removeDuplicateLines (joinLines ls))
        = removeDuplicateLines (joinLines ls) := by
  suffices hfix : removeDuplicateLines (joinLines ls) = joinLines ls by
    exact ⟨hfix, by rw [hfix, hfix]⟩
  match ls with
  | [] => rfl
  | l :: rest =>
      have hlne : l ≠ [] := (h1 l (List.mem_cons_self _ _)).2.1
      have hjoin_ne : joinLines (l :: rest) ≠ [] := by
        match l, hlne, rest with
        | c :: l2, _, [] => exact List.cons_ne_nil _ _
        | c :: l2, _, r2 :: rest2 => exact List.cons_ne_nil _ _
      have hsplit : splitLines (joinLines (l :: rest)) = l :: rest :=
        splitLines_joinLines _ (List.cons_ne_nil _ _)
          (fun x hx => (h1 x hx).2.2)
      show (if joinLines (l :: rest) = [] then []
        else joinLines ((dedupLines [] (splitLines (joinLines (l :: rest)))).map
          Prod.fst)) = _
      rw [if_neg hjoin_ne, hsplit]
      rw [dedupLines_clean (l :: rest) []
        (fun x hx => ⟨(h1 x hx).1, (h1 x hx).2.1⟩)
        (fun p hp => absurd hp (List.not_mem_nil p)) h2]
      have hmap : (Prod.fst ∘ fun l : List Char => (l, normalizeL l)) = id := rfl
      rw [List.nil_append, List.map_map, hmap, List.map_id]

/-- Witness for the amended C6 on concrete clean lines. -/
theorem C6_witness :
    removeDuplicateLines (joinLines [('a' :: ['b']), ('x' :: ['y'])])
        = joinLines [('a' :: ['b']), ('x' :: ['y'])] ∧
      removeDuplicateLines (removeDuplicateLines
          (joinLines [('a' :: ['b']), ('x' :: ['y'])]))
        = removeDuplicateLines (joinLines [('a' :: ['b']), ('x' :: ['y'])]) :=
  C6_removeDuplicateLines_fixpoint_on_clean [['a', 'b'], ['x', 'y']]
    (by decide) (by decide)

/-- Sequential mapM over Except succeeds pointwise. -/
theorem mapM_ok_of_forall {β γ ε : Type} (g : β → Except ε γ) (f : β → γ) :
    ∀ l : List β, (∀ r ∈ l, g r = .ok (f r)) → l.mapM g = .ok (l.map f) := by
  intro l
  induction l with
  | nil => intro _; rfl
  | cons b t ih =>
      intro h
      rw [List.mapM_cons, h b (List.mem_cons_self _ _),
        ih (fun r hr => h r (List.mem_cons_of_mem _ hr))]
      rfl

/-- Sequential mapM over Except fails when any element fails. -/
theorem mapM_error_of_exists {β γ ε : Type} (g : β → Except ε γ) :
    ∀ l : List β, (∃ r ∈ l, ∃ e, g r = .error e) →
      ∃ e, l.mapM g = .error e := by
  intro l
  induction l with
  | nil => intro h; obtain ⟨r, hr, _⟩ := h; exact absurd hr (List.not_mem_nil r)
  | cons b t ih =>
      intro h
      obtain ⟨r, hr, e, he⟩ := h
      rw [List.mapM_cons]
      rcases List.mem_cons.mp hr with hrb | hrt
      · subst hrb; rw [he]; exact ⟨e, rfl⟩
      · cases hgb : g b with
        | error e0 => exact ⟨e0, rfl⟩
        | ok v =>
            obtain ⟨e1, he1⟩ := ih ⟨r, hrt, e, he⟩
            rw [he1]
            exact ⟨e1, rfl⟩

/-- C3 counterexample: under an enhancement function for which exactly
one recipe fails, the generator returns only the original image,
discarding every other recipe's variant, contrary to the claim that a
single failure leaves the other variants in the output. -/
theorem C3_counterexample :
    (recipes.filter (fun o => o.threshold = some 128)).length = 1 ∧
      createEnhancedImageVariants enhFailBinarize 0 = [0] ∧
      (1 : Int) ∉ createEnhancedImageVariants enhFailBinarize 0 := by decide

/-- C3 amended: the generator is all-or-nothing over the recipes: if
any recipe fails, the whole enhanced-variant sequence is discarded and
only the original image is returned; when every recipe succeeds the
output is the original followed by each recipe's variant in source
order. -/
theorem C3_variants_all_or_nothing {ε α : Type}
    (enh : EnhanceOptions → Except ε α) (orig : α) :
    ((∃ r ∈ recipes, ∃ e, enh r = .error e) →
        createEnhancedImageVariants enh orig = [orig]) ∧
      (∀ f : EnhanceOptions → α, (∀ r ∈ recipes, enh r = .ok (f r)) →
        createEnhancedImageVariants enh orig = orig :: recipes.map f) := by
  constructor
  · intro h
    obtain ⟨e, he⟩ := mapM_error_of_exists enh recipes h
    unfold createEnhancedImageVariants
    rw [he]
  · intro f h
    unfold createEnhancedImageVariants
    rw [mapM_ok_of_forall enh f recipes h]

/-- Witness for the amended C3: with an everywhere-succeeding
enhancement function, the output is the original followed by all ten
variants. -/
theorem C3_witness :
    createEnhancedImageVariants (fun _ => (Except.ok 5 : Except Unit Int)) (0 : Int)
      = 0 :: recipes.map (fun _ => (5 : Int)) :=
  (C3_variants_all_or_nothing (fun _ => (Except.ok 5 : Except Unit Int)) 0).2
    (fun _ => 5) (fun _ _ => rfl)

/-- Both accumulated squared magnitudes are nonnegative. -/
theorem cosineAccum_nonneg :
    ∀ a b : List ℝ, 0 ≤ (cosineAccum a b).2.1 ∧ 0 ≤ (cosineAccum a b).2.2 := by
  intro a
  induction a with
  | nil => intro b; cases b <;> simp [cosineAccum]
  | cons x xs ih =>
      intro b
      cases b with
      | nil => simp [cosineAccum]
      | cons y ys =>
          have h := ih ys
          constructor
          · have : 0 ≤ x * x := mul_self_nonneg x
            simpa [cosineAccum] using add_nonneg this h.1
          · have : 0 ≤ y * y := mul_self_nonneg y
            simpa [cosineAccum] using add_nonneg this h.2

/-- Swapping the vectors swaps the two magnitudes and keeps the dot
product. -/
theorem cosineAccum_symm :
    ∀ a b : List ℝ, (cosineAccum a b).1 = (cosineAccum b a).1 ∧
      (cosineAccum a b).2.1 = (cosineAccum b a).2.2 ∧
      (cosineAccum a b).2.2 = (cosineAccum b a).2.1 := by
  intro a
  induction a with
  | nil => intro b; cases b <;> simp [cosineAccum]
  | cons x xs ih =>
      intro b
      cases b with
      | nil => simp [cosineAccum]
      | cons y ys =>
          have h := ih ys
          refine ⟨?_, ?_, ?_⟩ <;> simp [cosineAccum, h.1, h.2.1, h.2.2, mul_comm]

/-- Cauchy-Schwarz for the accumulator: the squared dot product is at
most the product of the squared magnitudes. -/
theorem cosineAccum_cauchy :
    ∀ a b : List ℝ, ((cosineAccum a b).1) ^ 2 ≤
      (cosineAccum a b).2.1 * (cosineAccum a b).2.2 := by
  intro a
  induction a with
  | nil => intro b; cases b <;> simp [cosineAccum]
  | cons x xs ih =>
      intro b
      cases b with
      | nil => simp [cosineAccum]
      | cons y ys =>
          have hP := ih ys
          have hn := cosineAccum_nonneg xs ys
          obtain ⟨hA, hB⟩ := hn
          set d := (cosineAccum xs ys).1 with hd
          set A := (cosineAccum xs ys).2.1 with hA2
          set B := (cosineAccum xs ys).2.2 with hB2
          show (x * y + d) ^ 2 ≤ (x * x + A) * (y * y + B)
          have hST : 0 ≤ (x ^ 2 * B + y ^ 2 * A - 2 * (x * y) * d) *
              (x ^ 2 * B + y ^ 2 * A + 2 * (x * y) * d) := by
            have h1 : 0 ≤ (x ^ 2 * B - y ^ 2 * A) ^ 2 := sq_nonneg _
            have h2 : 0 ≤ (x * y) ^ 2 * (A * B - d ^ 2) :=
              mul_nonneg (sq_nonneg _) (by linarith)
            nlinarith [h1, h2]
          have hS : 0 ≤ x ^ 2 * B + y ^ 2 * A - 2 * (x * y) * d := by
            have hxB : 0 ≤ x ^ 2 * B := mul_nonneg (sq_nonneg x) hB
            have hyA : 0 ≤ y ^ 2 * A := mul_nonneg (sq_nonneg y) hA
            nlinarith [hST, hxB, hyA]
          nlinarith [hS, hP]

/-- C4: cosine similarity as computed by the source is symmetric and
bounded between -1 and 1 for any two non-zero vectors of any positive,
possibly unequal, lengths. -/
theorem C4_cosineSimilarity_symm_bounded (a b : List ℝ)
    (hla : 0 < a.length) (hlb : 0 < b.length)
    (ha : ∃ x ∈ a, x ≠ 0) (hb : ∃ x ∈ b, x ≠ 0) :
    cosineSimilarity a b = cosineSimilarity b a ∧
      -1 ≤ cosineSimilarity a b ∧ cosineSimilarity a b ≤ 1 := by
  obtain ⟨hsym1, hsym2, hsym3⟩ := cosineAccum_symm a b
  constructor
  · show (if Real.sqrt (cosineAccum a b).2.1 = 0 ∨
        Real.sqrt (cosineAccum a b).2.2 = 0 then 0
      else (cosineAccum a b).1 /
        (Real.sqrt (cosineAccum a b).2.1 * Real.sqrt (cosineAccum a b).2.2))
      = (if Real.sqrt (cosineAccum b a).2.1 = 0 ∨
        Real.sqrt (cosineAccum b a).2.2 = 0 then 0
      else (cosineAccum b a).1 /
        (Real.sqrt (cosineAccum b a).2.1 * Real.sqrt (cosineAccum b a).2.2))
    rw [hsym1, hsym2, hsym3]
    by_cases h1 : Real.sqrt (cosineAccum b a).2.1 = 0 <;>
      by_cases h2 : Real.sqrt (cosineAccum b a).2.2 = 0 <;>
      simp [h1, h2, mul_comm]
  · show -1 ≤ (if Real.sqrt (cosineAccum a b).2.1 = 0 ∨
        Real.sqrt (cosineAccum a b).2.2 = 0 then 0
      else (cosineAccum a b).1 /
        (Real.sqrt (cosineAccum a b).2.1 * Real.sqrt (cosineAccum a b).2.2)) ∧
      (if Real.sqrt (cosineAccum a b).2.1 = 0 ∨
        Real.sqrt (cosineAccum a b).2.2 = 0 then 0
      else (cosineAccum a b).1 /
        (Real.sqrt (cosineAccum a b).2.1 * Real.sqrt (cosineAccum a b).2.2)) ≤ 1
    by_cases h : Real.sqrt (cosineAccum a b).2.1 = 0 ∨
        Real.sqrt (cosineAccum a b).2.2 = 0
    · rw [if_pos h]; norm_num
    · rw [if_neg h]
      push_neg at h
      obtain ⟨hA, hB⟩ := cosineAccum_nonneg a b
      have hsA : 0 < Real.sqrt (cosineAccum a b).2.1 :=
        lt_of_le_of_ne (Real.sqrt_nonneg _) (Ne.symm h.1)
      have hsB : 0 < Real.sqrt (cosineAccum a b).2.2 :=
        lt_of_le_of_ne (Real.sqrt_nonneg _) (Ne.symm h.2)
      have hm : 0 < Real.sqrt (cosineAccum a b).2.1 *
          Real.sqrt (cosineAccum a b).2.2 := mul_pos hsA hsB
      have habs : |(cosineAccum a b).1| ≤
          Real.sqrt (cosineAccum a b).2.1 * Real.sqrt (cosineAccum a b).2.2 := by
        rw [← Real.sqrt_mul hA]
        calc |(cosineAccum a b).1|
            = Real.sqrt ((cosineAccum a b).1 ^ 2) := (Real.sqrt_sq_eq_abs _).symm
          _ ≤ Real.sqrt ((cosineAccum a b).2.1 * (cosineAccum a b).2.2) :=
              Real.sqrt_le_sqrt (cosineAccum_cauchy a b)
      obtain ⟨hlo, hhi⟩ := abs_le.mp habs
      constructor
      · rw [neg_le, ← neg_div]
        exact (div_le_one hm).mpr (by linarith)
      · exact (div_le_one hm).mpr hhi

/-- Witness for C4 at two concrete nonzero vectors of unequal lengths. -/
theorem C4_witness :
    cosineSimilarity [(1 : ℝ), 2] [(2 : ℝ), 1, 5]
        = cosineSimilarity [(2 : ℝ), 1, 5] [(1 : ℝ), 2] ∧
      -1 ≤ cosineSimilarity [(1 : ℝ), 2] [(2 : ℝ), 1, 5] ∧
      cosineSimilarity [(1 : ℝ), 2] [(2 : ℝ), 1, 5] ≤ 1 :=
  C4_cosineSimilarity_symm_bounded [1, 2] [2, 1, 5] (by decide) (by decide)
    ⟨1, List.mem_cons_self _ _, one_ne_zero⟩
    ⟨2, List.mem_cons_self _ _, two_ne_zero⟩

/-- Inserting into the sorted list commutes with filtering by any
predicate that only holds on entries of one fixed similarity: the
entries passed over by the insertion are strictly more similar, so the
predicate cannot hold on them together with the inserted entry. -/
theorem filter_orderedInsert (p : ProductVector × ℝ → Bool)
    (hp : ∀ x y, p x = true → p y = true → x.2 = y.2)
    (a : ProductVector × ℝ) :
    ∀ L, (L.orderedInsert simRel a).filter p = (a :: L).filter p := by
  intro L
  induction L with
  | nil => rfl
  | cons b L2 ih =>
      by_cases hab : simRel a b
      · rw [List.orderedInsert_of_le _ _ hab]
      · show (if simRel a b then a :: b :: L2
            else b :: List.orderedInsert simRel a L2).filter p = _
        rw [if_neg hab]
        cases hpb : p b with
        | true =>
            cases hpa : p a with
            | true =>
                exfalso
                exact hab (le_of_eq (hp a b hpa hpb).symm)
            | false =>
                simp only [List.filter_cons, hpb, hpa, if_true, if_false,
                  Bool.false_eq_true, ih]
        | false =>
            simp only [List.filter_cons, hpb, Bool.false_eq_true, if_false, ih]

/-- Sorting commutes with filtering by a fixed-similarity predicate:
stability of the insertion sort. -/
theorem filter_insertionSort (p : ProductVector × ℝ → Bool)
    (hp : ∀ x y, p x = true → p y = true → x.2 = y.2) :
    ∀ l : List (ProductVector × ℝ),
      (l.insertionSort simRel).filter p = l.filter p := by
  intro l
  induction l with
  | nil => rfl
  | cons a l2 ih =>
      show ((l2.insertionSort simRel).orderedInsert simRel a).filter p = _
      rw [filter_orderedInsert p hp a]
      simp only [List.filter_cons, ih]

/-- C5: findNearestProducts returns min of topK and the catalog size
entries, sorted by non-increasing similarity; entries of any one
similarity value appear as a prefix of the equally-similar entries of
the scored catalog in insertion order (stable tie-breaking); and the
omitted topK defaults to 3. -/
theorem C5_findNearestProducts_spec (catalog : List ProductVector)
    (queryVector : List ℝ) (topK : ℕ) :
    (findNearestProducts catalog queryVector topK).length
        = min topK catalog.length ∧
      List.Sorted simRel (findNearestProducts catalog queryVector topK) ∧
      (∀ s : ℝ, ∃ t,
        ((catalog.map (fun product =>
            (product, cosineSimilarity queryVector product.vector))).filter
          (fun e => decide (e.2 = s)))
          = ((findNearestProducts catalog queryVector topK).filter
              (fun e => decide (e.2 = s))) ++ t) ∧
      findNearestProductsDefault catalog queryVector
        = findNearestProducts catalog queryVector 3 := by
  refine ⟨?_, ?_, ?_, rfl⟩
  · simp [findNearestProducts]
  · exact List.Pairwise.sublist (List.take_sublist _ _)
      (List.sorted_insertionSort simRel _)
  · intro s
    set sims := catalog.map
      (fun product => (product, cosineSimilarity queryVector product.vector))
      with hsims
    set p : ProductVector × ℝ → Bool := fun e => decide (e.2 = s) with hps
    have hp : ∀ x y, p x = true → p y = true → x.2 = y.2 := by
      intro x y hx hy
      rw [hps] at hx hy
      exact (of_decide_eq_true hx).trans (of_decide_eq_true hy).symm
    refine ⟨((sims.insertionSort simRel).drop topK).filter p, ?_⟩
    have hsplit : sims.insertionSort simRel
        = (sims.insertionSort simRel).take topK
          ++ (sims.insertionSort simRel).drop topK :=
      (List.take_append_drop _ _).symm
    calc sims.filter p = ((sims.insertionSort simRel).filter p) :=
          (filter_insertionSort p hp sims).symm
      _ = ((sims.insertionSort simRel).take topK).filter p
          ++ ((sims.insertionSort simRel).drop topK).filter p := by
            rw [← List.filter_append, ← hsplit]
      _ = (findNearestProducts catalog queryVector topK).filter p
          ++ ((sims.insertionSort simRel).drop topK).filter p := rfl

/-- C8: loading malformed catalog data leaves the previous catalog
exactly as it was: both a string that fails to parse and parsed data
lacking a vectors array return the prior catalog unchanged, and the
loader is a total function, so the failure never propagates to the
caller. -/
theorem C8_load_preserves_catalog (catalog : List ProductVector) :
    (∀ err : String, loadProductVectorsFromJSON (.error err) catalog = catalog) ∧
      (∀ data : Json, (∀ vs, getField data "vectors" ≠ some (Json.arr vs)) →
        loadProductVectorsFromJSON (.ok data) catalog = catalog) := by
  constructor
  · intro err; rfl
  · intro data h
    show (if truthy data then _ else catalog) = catalog
    cases ht : truthy data with
    | false => rw [if_neg (by simp [ht])]
    | true =>
        rw [if_pos (by simp [ht])]
        cases hv : getField data "vectors" with
        | none => rfl
        | some j =>
            cases j with
            | arr vs => exact absurd hv (h vs)
            | null => rfl
            | bool b => rfl
            | num q => rfl
            | str s => rfl
            | obj fields => rfl

/-- Witness for C8: a parse failure and a parsed object without a
vectors array both leave a concrete one-entry catalog unchanged. -/
theorem C8_witness :
    loadProductVectorsFromJSON (Except.error "unparsable")
        [⟨"P001", "Nordic Spirit Mint", none, [1, 0]⟩]
      = [⟨"P001", "Nordic Spirit Mint", none, [1, 0]⟩] ∧
    loadProductVectorsFromJSON (Except.ok (Json.obj [("foo", Json.num 1)]))
        [⟨"P001", "Nordic Spirit Mint", none, [1, 0]⟩]
      = [⟨"P001", "Nordic Spirit Mint", none, [1, 0]⟩] :=
  ⟨(C8_load_preserves_catalog _).1 "unparsable",
   (C8_load_preserves_catalog _).2 (Json.obj [("foo", Json.num 1)])
     (fun vs h => nomatch h)⟩

/-- C7 counterexample: with the real variant count of eleven, a single
logger event reporting recognition fraction one during the first
variant pushes progress to 45, after which the second variant resets it
to 29; the reported sequence is not monotonically non-decreasing. -/
theorem C7_counterexample :
    ¬ List.Pairwise (fun a b : ℤ => a ≤ b) (progressTrace 11 [1] 0) := by
  intro hpw
  have htr : progressTrace 11 [1] 0
      = [0, 5, 10, 15, 20, 25, 25, 45, 29, 32, 36, 40, 43, 47, 50, 54, 58,
          61, 95, 100] := by
    unfold progressTrace variantProgress loggerProgress regionProgress
    norm_num [jsRound, List.range_succ]
  rw [htr] at hpw
  revert hpw
  decide

theorem jsRound_mono {q r : ℚ} (h : q ≤ r) : jsRound q ≤ jsRound r :=
  Int.floor_le_floor (by linarith)

theorem jsRound_intCast (c : ℤ) : jsRound (c : ℚ) = c := by
  unfold jsRound
  rw [Int.floor_int_add]
  norm_num

theorem jsRound_le_int {q : ℚ} {z : ℤ} (h : q ≤ (z : ℚ)) : jsRound q ≤ z := by
  have := jsRound_mono h
  rwa [jsRound_intCast z] at this

theorem int_le_jsRound {q : ℚ} {z : ℤ} (h : (z : ℚ) ≤ q) : z ≤ jsRound q := by
  have := jsRound_mono h
  rwa [jsRound_intCast z] at this

theorem variantProgress_bounds (numVariants i : ℕ) (h : i < numVariants) :
    25 ≤ variantProgress numVariants i ∧ variantProgress numVariants i ≤ 65 := by
  have hn : (0 : ℚ) < numVariants := by
    exact_mod_cast Nat.zero_lt_of_lt h
  have h0 : (0 : ℚ) ≤ (i : ℚ) / (numVariants : ℚ) :=
    div_nonneg (Nat.cast_nonneg i) (le_of_lt hn)
  have h1 : (i : ℚ) / (numVariants : ℚ) ≤ 1 :=
    (div_le_one hn).mpr (by exact_mod_cast le_of_lt h)
  constructor
  · exact int_le_jsRound (by push_cast; nlinarith)
  · exact jsRound_le_int (by push_cast; nlinarith)

theorem variantProgress_mono (numVariants i j : ℕ) (h : i ≤ j) :
    variantProgress numVariants i ≤ variantProgress numVariants j := by
  rcases Nat.eq_zero_or_pos numVariants with h0 | hpos
  · subst h0
    simp [variantProgress]
  · apply jsRound_mono
    have hn : (0 : ℚ) < numVariants := by exact_mod_cast hpos
    have : (i : ℚ) / numVariants ≤ (j : ℚ) / numVariants :=
      (div_le_div_iff_of_pos_right hn).mpr (by exact_mod_cast h)
    nlinarith

theorem regionProgress_bounds (numRegions i : ℕ) (h : i < numRegions) :
    65 ≤ regionProgress numRegions i ∧ regionProgress numRegions i ≤ 90 := by
  have hn : (0 : ℚ) < numRegions := by
    exact_mod_cast Nat.zero_lt_of_lt h
  have h0 : (0 : ℚ) ≤ (i : ℚ) / (numRegions : ℚ) :=
    div_nonneg (Nat.cast_nonneg i) (le_of_lt hn)
  have h1 : (i : ℚ) / (numRegions : ℚ) ≤ 1 :=
    (div_le_one hn).mpr (by exact_mod_cast le_of_lt h)
  constructor
  · exact int_le_jsRound (by push_cast; nlinarith)
  · exact jsRound_le_int (by push_cast; nlinarith)

theorem regionProgress_mono (numRegions i j : ℕ) (h : i ≤ j) :
    regionProgress numRegions i ≤ regionProgress numRegions j := by
  rcases Nat.eq_zero_or_pos numRegions with h0 | hpos
  · subst h0
    simp [regionProgress]
  · apply jsRound_mono
    have hn : (0 : ℚ) < numRegions := by exact_mod_cast hpos
    have : (i : ℚ) / numRegions ≤ (j : ℚ) / numRegions :=
      (div_le_div_iff_of_pos_right hn).mpr (by exact_mod_cast h)
    nlinarith

theorem flatMap_singleton_eq_map {α β : Type} (f : α → β) :
    ∀ l : List α, (l.flatMap (fun x => [f x])) = l.map f := by
  intro l
  induction l with
  | nil => rfl
  | cons a t ih => simp only [List.flatMap_cons, ih, List.map_cons,
      List.singleton_append]

theorem pairwise_le_map_range (f : ℕ → ℤ) (n : ℕ)
    (hf : ∀ i j, i ≤ j → j < n → f i ≤ f j) :
    List.Pairwise (fun a b : ℤ => a ≤ b) ((List.range n).map f) := by
  apply List.pairwise_map.mpr
  apply List.Pairwise.imp_of_mem ?_ (List.pairwise_lt_range n)
  intro a b ha hb hab
  exact hf a b (le_of_lt hab) (List.mem_range.mp hb)

theorem mem_map_range_bound (f : ℕ → ℤ) (n : ℕ) (lo hi : ℤ)
    (hf : ∀ i, i < n → lo ≤ f i ∧ f i ≤ hi) :
    ∀ x ∈ (List.range n).map f, lo ≤ x ∧ x ≤ hi := by
  intro x hx
  obtain ⟨i, hi2, rfl⟩ := List.mem_map.mp hx
  exact hf i (List.mem_range.mp hi2)

/-- C7 amended: when no logger recognition events are reported during
the first variant, the reported progress sequence is monotonically
non-decreasing for every variant and region count and ends at 100; with
logger events the overshoot counterexample above shows monotonicity
fails because no clamping is applied. -/
theorem C7_progress_monotone_without_logger (numVariants numRegions : ℕ) :
    List.Pairwise (fun a b : ℤ => a ≤ b) (progressTrace numVariants [] numRegions) ∧
      (progressTrace numVariants [] numRegions).getLast? = some 100 := by
  have hB : (List.range numVariants).flatMap
      (fun i => variantProgress numVariants i ::
        (if i = 0 then List.map loggerProgress [] else []))
      = (List.range numVariants).map (variantProgress numVariants) := by
    rw [show (fun i => variantProgress numVariants i ::
        (if i = 0 then List.map loggerProgress [] else []))
      = fun i => [variantProgress numVariants i] by
        funext i
        cases Nat.decEq i 0 with
        | isTrue h => simp [h]
        | isFalse h => simp [h]]
    exact flatMap_singleton_eq_map (variantProgress numVariants) _
  have htrace : progressTrace numVariants [] numRegions
      = [0, 5, 10, 15, 20, 25]
        ++ ((List.range numVariants).map (variantProgress numVariants)
          ++ ((List.range numRegions).map (regionProgress numRegions)
            ++ [95, 100])) := by
    unfold progressTrace
    rw [hB, List.append_assoc, List.append_assoc]
  rw [htrace]
  have hBpw : List.Pairwise (fun a b : ℤ => a ≤ b)
      ((List.range numVariants).map (variantProgress numVariants)) :=
    pairwise_le_map_range _ _ (fun i j hij _ => variantProgress_mono _ i j hij)
  have hCpw : List.Pairwise (fun a b : ℤ => a ≤ b)
      ((List.range numRegions).map (regionProgress numRegions)) :=
    pairwise_le_map_range _ _ (fun i j hij _ => regionProgress_mono _ i j hij)
  have hBbd := mem_map_range_bound (variantProgress numVariants) numVariants
    25 65 (fun i hi => variantProgress_bounds numVariants i hi)
  have hCbd := mem_map_range_bound (regionProgress numRegions) numRegions
    65 90 (fun i hi => regionProgress_bounds numRegions i hi)
  constructor
  · rw [List.pairwise_append]
    refine ⟨by decide, ?_, ?_⟩
    · rw [List.pairwise_append]
      refine ⟨hBpw, ?_, ?_⟩
      · rw [List.pairwise_append]
        refine ⟨hCpw, by decide, ?_⟩
        intro a ha b hb
        have h90 := (hCbd a ha).2
        have hb2 : b = 95 ∨ b = 100 := by simpa using hb
        rcases hb2 with rfl | rfl <;> omega
      · intro a ha b hb
        have h65 := (hBbd a ha).2
        rcases List.mem_append.mp hb with hbc | hbd
        · have := (hCbd b hbc).1
          omega
        · have hb2 : b = 95 ∨ b = 100 := by simpa using hbd
          rcases hb2 with rfl | rfl <;> omega
    · intro a ha b hb
      have ha2 : a = 0 ∨ a = 5 ∨ a = 10 ∨ a = 15 ∨ a = 20 ∨ a = 25 := by
        simpa using ha
      have ha25 : a ≤ 25 := by
        rcases ha2 with rfl | rfl | rfl | rfl | rfl | rfl <;> omega
      rcases List.mem_append.mp hb with hbB | hbCD
      · have := (hBbd b hbB).1
        omega
      · rcases List.mem_append.mp hbCD with hbc | hbd
        · have := (hCbd b hbc).1
          omega
        · have hb2 : b = 95 ∨ b = 100 := by simpa using hbd
          rcases hb2 with rfl | rfl <;> omega
  · rw [List.getLast?_append, List.getLast?_append, List.getLast?_append]
    rfl

/-- C9 counterexample: grouping is by the box top edge, not the
vertical midpoint, and a region whose top edge equals half the image
height is placed in neither group, so the claimed midpoint partition
fails both ways: the boundary region is in no group, and a region whose
midpoint is in the bottom half is grouped top. -/
theorem C9_counterexample :
    (boundaryRegion ∉ topRegions 100 [boundaryRegion, midpointRegion] ∧
      boundaryRegion ∉ bottomRegions 100 [boundaryRegion, midpointRegion]) ∧
      (100 / 2 < midpointRegion.y + midpointRegion.height / 2 ∧
        midpointRegion ∈ topRegions 100 [boundaryRegion, midpointRegion] ∧
        midpointRegion ∉ bottomRegions 100 [boundaryRegion, midpointRegion]) := by
  have htop : topRegions 100 [boundaryRegion, midpointRegion] = [midpointRegion] := by
    unfold topRegions boundaryRegion midpointRegion
    norm_num [List.filter_cons]
  have hbot : bottomRegions 100 [boundaryRegion, midpointRegion] = [] := by
    unfold bottomRegions boundaryRegion midpointRegion
    norm_num [List.filter_cons]
  refine ⟨⟨?_, ?_⟩, ?_, ?_, ?_⟩
  · rw [htop]
    simp only [List.mem_singleton]
    unfold boundaryRegion midpointRegion
    intro hEq
    have := congrArg RegionText.y hEq
    norm_num at this
  · rw [hbot]
    exact List.not_mem_nil _
  · unfold midpointRegion
    norm_num
  · rw [htop]
    exact List.mem_singleton.mpr rfl
  · rw [hbot]
    exact List.not_mem_nil _

/-- C9 amended: region grouping splits the region results by the top
edge of each bounding box against half the image height: a region with
top edge strictly above the middle goes only to the top group, one with
top edge strictly below goes only to the bottom group, and one with top
edge exactly at the middle is placed in neither group; at most two
space-joined group transcripts are produced. -/
theorem C9_region_grouping_by_top_edge (imgHeight : ℚ)
    (regionTexts : List RegionText) :
    (∀ r ∈ regionTexts,
      (r.y < imgHeight / 2 → r ∈ topRegions imgHeight regionTexts ∧
        r ∉ bottomRegions imgHeight regionTexts) ∧
      (imgHeight / 2 < r.y → r ∈ bottomRegions imgHeight regionTexts ∧
        r ∉ topRegions imgHeight regionTexts) ∧
      (r.y = imgHeight / 2 → r ∉ topRegions imgHeight regionTexts ∧
        r ∉ bottomRegions imgHeight regionTexts)) ∧
      (allRegionTexts imgHeight regionTexts).length ≤ 2 := by
  constructor
  · intro r hr
    refine ⟨?_, ?_, ?_⟩
    · intro hy
      constructor
      · exact List.mem_filter.mpr ⟨hr, by simpa using hy⟩
      · intro hmem
        have := (List.mem_filter.mp hmem).2
        have hgt : imgHeight / 2 < r.y := by simpa using this
        exact absurd hy (not_lt_of_gt hgt)
    · intro hy
      constructor
      · exact List.mem_filter.mpr ⟨hr, by simpa using hy⟩
      · intro hmem
        have := (List.mem_filter.mp hmem).2
        have hlt : r.y < imgHeight / 2 := by simpa using this
        exact absurd hy (not_lt_of_gt hlt)
    · intro hy
      constructor
      · intro hmem
        have := (List.mem_filter.mp hmem).2
        have hlt : r.y < imgHeight / 2 := by simpa using this
        exact absurd hy (ne_of_lt hlt)
      · intro hmem
        have := (List.mem_filter.mp hmem).2
        have hgt : imgHeight / 2 < r.y := by simpa using this
        exact absurd hy.symm (ne_of_lt hgt)
  · have hlen : ∀ (c d : Prop) [Decidable c] [Decidable d] (x : List Char),
        (if c then (if d then [x] else []) else []).length ≤ 1 := by
      intro c d ic id2 x
      split
      · split
        · simp
        · simp
      · simp
    unfold allRegionTexts
    rw [List.length_append]
    have h1 := hlen (topRegions imgHeight regionTexts ≠ [])
      (trimL (joinSpace ((topRegions imgHeight regionTexts).map
        (fun r => r.text))) ≠ [])
      (trimL (joinSpace ((topRegions imgHeight regionTexts).map
        (fun r => r.text))))
    have h2 := hlen (bottomRegions imgHeight regionTexts ≠ [])
      (trimL (joinSpace ((bottomRegions imgHeight regionTexts).map
        (fun r => r.text))) ≠ [])
      (trimL (joinSpace ((bottomRegions imgHeight regionTexts).map
        (fun r => r.text))))
    omega

/-- Witness for the amended C9 at a concrete region list. -/
theorem C9_witness :
    (midpointRegion ∈ topRegions 100 [boundaryRegion, midpointRegion] ∧
      midpointRegion ∉ bottomRegions 100 [boundaryRegion, midpointRegion]) ∧
      (allRegionTexts 100 [boundaryRegion, midpointRegion]).length ≤ 2 :=
  ⟨((C9_region_grouping_by_top_edge 100 [boundaryRegion, midpointRegion]).1
      midpointRegion (by simp) ).1 (by unfold midpointRegion; norm_num),
   (C9_region_grouping_by_top_edge 100 [boundaryRegion, midpointRegion]).2⟩

/-- Witness for the amended C2 at a concrete input with a nonempty
hypothesis. -/
theorem C2_amended_witness :
    List.Pairwise (fun a b => ¬ overlaps a b = true)
        (mergeAdjacentRegions [⟨0, 0, 10, 10⟩, ⟨100, 100, 10, 10⟩]) ∧
      ∃ g ∈ mergeAdjacentRegions [⟨0, 0, 10, 10⟩, ⟨100, 100, 10, 10⟩],
        containsRegion g ⟨0, 0, 10, 10⟩ := by
  have h := C2_amended_merge_fixpoint [⟨0, 0, 10, 10⟩, ⟨100, 100, 10, 10⟩]
  exact ⟨h.1, h.2 (by decide)⟩
